import Mathlib

/-!
Shallow embedding of the `ThreadPool` class (ThreadPool.h, reproduced in
src/README.md) together with the example driver (src/example.cpp).

The pool is modelled as a labelled transition system over `PoolState`, the
interleaving semantics of the C++ program:

* `Step.enq` is a successful `ThreadPool::enqueue` call: the whole critical
  section (create the packaged task, lock, check `stop`, `tasks.emplace`,
  unlock, `notify_one`) runs under `queue_mutex`, so it is one atomic step.
* `Step.enqFail` is `enqueue` invoked after `stop` was set: it throws
  `std::runtime_error("enqueue on stopped ThreadPool")` and changes nothing.
* `Step.claim` is the body of the worker lambda up to the end of its locked
  block: `condition.wait(lock, [this]{ return stop || !tasks.empty(); })`
  returned with a non-empty queue, so the worker moves `tasks.front()` out
  and pops it.
* `Step.finish` is `task()` outside the lock: the packaged task runs the
  bound callable, stores its value — or the exception it raised — into the
  shared state of the `std::future` obtained from `get_future`, and the
  worker loops back to waiting.
* `Step.exitW` is the worker's `return`: the wait predicate held with
  `stop && tasks.empty()`, so the thread terminates.
* `Step.setStop` is the destructor's locked `stop = true` (followed by
  `notify_all`).

Ghost history fields (`submitted`, `dequeued`, `executed`) record the order
of submissions, of `front()/pop()` pairs, and of completed `task()` calls;
they change nothing observable and exist only to state the theorems.
-/

/-- Failures raised by user callables (`std::exception` payloads). -/
abbrev Err := String

/-- Result values of user callables (the example returns `int`). -/
abbrev Val := Nat

/-- One queued work item: `std::bind(f, args...)` wrapped in a
`std::packaged_task`.  `tid` is its ghost identity (= position in the
submission order); `f` applied to `arg` is the bound call, returning either
a value or the failure the callable raises. -/
structure WorkItem where
  tid : Nat
  f : Nat → Except Err Val
  arg : Nat

/-- The status of one worker thread from the constructor's lambda. -/
inductive WStatus where
  | waiting
  | running (t : WorkItem)
  | terminated

/-- The pool's shared state: the `stop` flag and the `tasks` queue (both
protected by `queue_mutex`), the worker threads, the future per submitted
task (`none` = not yet ready), plus ghost histories. -/
structure PoolState where
  stop : Bool
  tasks : List WorkItem
  workers : List WStatus
  handles : List (Option (Except Err Val))
  submitted : List WorkItem
  dequeued : List Nat
  executed : List Nat

/-- The constructor `ThreadPool::ThreadPool(threads)`: `stop(false)`, workers all
entering the wait loop, empty queue.  The constructor validates nothing and
never throws; `threads = 0` simply spawns no workers. -/
def init (threads : Nat) : PoolState :=
  { stop := false
    tasks := []
    workers := List.replicate threads .waiting
    handles := []
    submitted := []
    dequeued := []
    executed := [] }

/-- The packaged task built by `enqueue` before taking the lock. -/
def mkItem (s : PoolState) (f : Nat → Except Err Val) (arg : Nat) : WorkItem :=
  ⟨s.handles.length, f, arg⟩

/-- The push `tasks.emplace(...)` of the wrapper lambda plus the creation of the paired
future: the item goes to the back of the queue, its future starts pending. -/
def pushTask (s : PoolState) (f : Nat → Except Err Val) (arg : Nat) : PoolState :=
  { s with tasks := s.tasks ++ [mkItem s f arg]
           handles := s.handles ++ [none]
           submitted := s.submitted ++ [mkItem s f arg] }

/-- Ids of the items currently sitting in the queue, front first. -/
def queuedIds (s : PoolState) : List Nat := s.tasks.map WorkItem.tid

/-- Ids of the items currently being executed by some worker. -/
def runningIds : List WStatus → List Nat
  | [] => []
  | .running t :: ws => t.tid :: runningIds ws
  | .waiting :: ws => runningIds ws
  | .terminated :: ws => runningIds ws

/-- The wait predicate of the worker lambda:
`[this] { return this->stop || !this->tasks.empty(); }`. -/
def wakePred (s : PoolState) : Prop := s.stop = true ∨ s.tasks ≠ []

/-- The observable internal actions of one `ThreadPool::enqueue` call, in
program order. -/
inductive EnqEvent where
  | taskCreated
  | lockAcquired
  | threwPoolClosed
  | pushed
  | lockReleased
  | notifiedOne
deriving DecidableEq

/-- The call `ThreadPool::enqueue(f, args...)` as a function of the locked state:
the packaged task is constructed first (before the lock), then under the
lock `stop` is checked — throwing `std::runtime_error` if set — otherwise
the wrapper is emplaced, and after unlocking `condition.notify_one()` runs.
Returns the possibly-updated state, the `std::future` result (`ok` carries
the new handle's index; `error` is the thrown message), and the event log. -/
def enqueueRun (s : PoolState) (f : Nat → Except Err Val) (arg : Nat) :
    PoolState × Except Err Nat × List EnqEvent :=
  if s.stop then
    (s, .error "enqueue on stopped ThreadPool",
      [.taskCreated, .lockAcquired, .threwPoolClosed])
  else
    (pushTask s f arg, .ok s.handles.length,
      [.taskCreated, .lockAcquired, .pushed, .lockReleased, .notifiedOne])

/-- Transition labels. -/
inductive Label where
  | enq (f : Nat → Except Err Val) (arg : Nat)
  | enqFail
  | claim (i : Nat) (tid : Nat)
  | finish (i : Nat) (tid : Nat)
  | exitW (i : Nat)
  | setStop

/-- One interleaved step of the program: an `enqueue` call by some caller,
or one phase of some worker's loop, or the destructor flipping `stop`. -/
inductive Step : PoolState → Label → PoolState → Prop where
  | enq {s : PoolState} (f : Nat → Except Err Val) (arg : Nat) :
      s.stop = false →
      Step s (.enq f arg) (pushTask s f arg)
  | enqFail {s : PoolState} :
      s.stop = true →
      Step s .enqFail s
  | claim {s : PoolState} (i : Nat) (t : WorkItem) (rest : List WorkItem) :
      s.workers[i]? = some .waiting →
      s.tasks = t :: rest →
      Step s (.claim i t.tid)
        { s with tasks := rest
                 workers := s.workers.set i (.running t)
                 dequeued := s.dequeued ++ [t.tid] }
  | finish {s : PoolState} (i : Nat) (t : WorkItem) :
      s.workers[i]? = some (.running t) →
      Step s (.finish i t.tid)
        { s with workers := s.workers.set i .waiting
                 handles := s.handles.set t.tid (some (t.f t.arg))
                 executed := s.executed ++ [t.tid] }
  | exitW {s : PoolState} (i : Nat) :
      s.workers[i]? = some .waiting →
      s.stop = true →
      s.tasks = [] →
      Step s (.exitW i) { s with workers := s.workers.set i .terminated }
  | setStop {s : PoolState} :
      Step s .setStop { s with stop := true }

/-- Some step with any label. -/
def StepAny (s s' : PoolState) : Prop := ∃ l, Step s l s'

/-- Reachability along interleaved steps. -/
def Reachable : PoolState → PoolState → Prop := Relation.ReflTransGen StepAny

/-- The destructor has returned: `stop` was set (and `notify_all` issued),
and every worker thread was joined, i.e. has terminated. -/
def destructorDone (s : PoolState) : Prop :=
  s.stop = true ∧ ∀ w ∈ s.workers, w = WStatus.terminated

/-- Readiness of the shared state behind the future paired with task `tid`:
`some r` once the executing worker's `packaged_task` has stored result `r`
(a value or an exception to re-raise), `none` while the task has not run —
the state on which a `get` would have to block.  This observes only the
producer side; the consumer-side `std::future::get`, which releases the
shared state when it returns, is `futureGetOnce` below. -/
def futureGet (s : PoolState) (tid : Nat) : Option (Except Err Val) :=
  (s.handles[tid]?).bind id

/-- The caller's `std::future<return_type>` from `enqueue`: the id of its
paired task, and whether it still owns its shared state (`valid()`); the
first returning `get()` releases the state and leaves the future invalid. -/
structure FutureHandle where
  tid : Nat
  valid : Bool
deriving DecidableEq

/-- Outcome of one `std::future::get` call. -/
inductive GetResult where
  /-- The shared state exists but is not ready: `get` blocks. -/
  | blocked
  /-- The stored result: the worker's value, or the captured exception
  re-raised in the caller. -/
  | value (r : Except Err Val)
  /-- No shared state (`valid()` is false, the state was already released
  by a previous `get`): `get` throws `std::future_error`. -/
  | futureError

/-- The call `std::future::get` on the caller's future: on a valid future it
blocks until the shared state is ready, then returns the stored result and
releases the shared state — the future becomes invalid, so the result can
be retrieved at most once; calling `get` on an invalid future does not
return a cached value but fails with `std::future_error`. -/
def futureGetOnce (s : PoolState) (h : FutureHandle) : GetResult × FutureHandle :=
  if h.valid then
    match futureGet s h.tid with
    | none => (.blocked, h)
    | some r => (.value r, ⟨h.tid, false⟩)
  else (.futureError, h)

/-! ### Basic facts about `runningIds` and worker updates -/

theorem runningIds_replicate_waiting (n : Nat) :
    runningIds (List.replicate n .waiting) = [] := by
  induction n with
  | zero => rfl
  | succ n ih => simpa [List.replicate, runningIds] using ih

theorem runningIds_set_running {ws : List WStatus} {i : Nat} (t : WorkItem)
    (h : ws[i]? = some .waiting) :
    (runningIds (ws.set i (.running t))).Perm (t.tid :: runningIds ws) := by
  induction ws generalizing i with
  | nil => simp at h
  | cons x xs ih =>
    cases i with
    | zero =>
      simp only [List.getElem?_cons_zero, Option.some.injEq] at h
      subst h
      simp [runningIds]
    | succ i =>
      simp only [List.getElem?_cons_succ] at h
      cases x with
      | waiting => simpa [runningIds] using ih h
      | running u =>
        simpa [runningIds] using (ih h).cons u.tid |>.trans (List.Perm.swap _ _ _)
      | terminated => simpa [runningIds] using ih h

theorem runningIds_set_waiting {ws : List WStatus} {i : Nat} {t : WorkItem}
    (h : ws[i]? = some (.running t)) :
    (t.tid :: runningIds (ws.set i .waiting)).Perm (runningIds ws) := by
  induction ws generalizing i with
  | nil => simp at h
  | cons x xs ih =>
    cases i with
    | zero =>
      simp only [List.getElem?_cons_zero, Option.some.injEq] at h
      subst h
      simp [runningIds]
    | succ i =>
      simp only [List.getElem?_cons_succ] at h
      cases x with
      | waiting => simpa [runningIds] using ih h
      | running u =>
        simpa [runningIds] using (List.Perm.swap _ _ _).trans ((ih h).cons u.tid)
      | terminated => simpa [runningIds] using ih h

theorem runningIds_set_terminated {ws : List WStatus} {i : Nat}
    (h : ws[i]? = some .waiting) :
    runningIds (ws.set i .terminated) = runningIds ws := by
  induction ws generalizing i with
  | nil => simp at h
  | cons x xs ih =>
    cases i with
    | zero =>
      simp only [List.getElem?_cons_zero, Option.some.injEq] at h
      subst h
      simp [runningIds]
    | succ i =>
      simp only [List.getElem?_cons_succ] at h
      cases x <;> simp [runningIds, ih h]

theorem runningIds_of_all_terminated {ws : List WStatus}
    (h : ∀ w ∈ ws, w = .terminated) : runningIds ws = [] := by
  induction ws with
  | nil => rfl
  | cons x xs ih =>
    have hx := h x (by simp)
    subst hx
    simpa [runningIds] using ih fun w hw => h w (by simp [hw])

/-! ### The inductive invariant of the pool -/

/-- Inductive invariant tying together the queue, the workers, the futures
and the ghost histories. -/
structure PoolInv (s : PoolState) : Prop where
  perm : (queuedIds s ++ (runningIds s.workers ++ s.executed)).Perm
      (List.range s.handles.length)
  deq : s.dequeued.Perm (runningIds s.workers ++ s.executed)
  sorted : (s.dequeued ++ queuedIds s).Pairwise (· < ·)
  sub_ids : s.submitted.map WorkItem.tid = List.range s.handles.length
  task_sub : ∀ t ∈ s.tasks, s.submitted[t.tid]? = some t
  run_sub : ∀ (i : Nat) (t : WorkItem),
      s.workers[i]? = some (WStatus.running t) → s.submitted[t.tid]? = some t
  hval : ∀ (i : Nat) (t : WorkItem), s.submitted[i]? = some t →
      s.handles[i]? = some (if i ∈ s.executed then some (t.f t.arg) else none)
  term_stop : WStatus.terminated ∈ s.workers → s.stop = true
  all_term : s.workers ≠ [] → (∀ w ∈ s.workers, w = .terminated) → s.tasks = []

theorem PoolInv.sub_len {s : PoolState} (hs : PoolInv s) :
    s.submitted.length = s.handles.length := by
  have := congrArg List.length hs.sub_ids
  simpa using this

theorem PoolInv.sub_tid {s : PoolState} (hs : PoolInv s) {i : Nat} {t : WorkItem}
    (h : s.submitted[i]? = some t) : t.tid = i := by
  have hi : i < s.submitted.length := (List.getElem?_eq_some.mp h).1
  have hmap : (s.submitted.map WorkItem.tid)[i]? = some t.tid := by
    rw [List.getElem?_map, h]; rfl
  rw [hs.sub_ids] at hmap
  have : i < s.handles.length := hs.sub_len ▸ hi
  simp [this] at hmap
  exact hmap.symm

theorem PoolInv.nodup_all {s : PoolState} (hs : PoolInv s) :
    (queuedIds s ++ (runningIds s.workers ++ s.executed)).Nodup :=
  hs.perm.symm.nodup (List.nodup_range _)

theorem PoolInv.id_lt {s : PoolState} (hs : PoolInv s) {id : Nat}
    (h : id ∈ queuedIds s ++ (runningIds s.workers ++ s.executed)) :
    id < s.handles.length := by
  have := hs.perm.mem_iff.mp h
  simpa using this

theorem init_inv (n : Nat) : PoolInv (init n) := by
  constructor
  case perm => simp [init, queuedIds, runningIds_replicate_waiting]
  case deq => simp [init, runningIds_replicate_waiting]
  case sorted => simp [init, queuedIds]
  case sub_ids => simp [init]
  case task_sub => simp [init]
  case run_sub =>
    intro i t h
    have ht : WStatus.running t ∈ List.replicate n WStatus.waiting := by
      simpa [init] using List.getElem?_mem h
    have := List.eq_of_mem_replicate ht
    simp at this
  case hval => simp [init]
  case term_stop =>
    intro h
    have ht : WStatus.terminated ∈ List.replicate n WStatus.waiting := h
    have := List.eq_of_mem_replicate ht
    simp at this
  case all_term =>
    intro hne hall
    have hn : n ≠ 0 := by
      intro h0
      subst h0
      simp [init] at hne
    have hw : WStatus.waiting ∈ List.replicate n WStatus.waiting :=
      List.mem_replicate.mpr ⟨hn, rfl⟩
    have hinit : WStatus.waiting ∈ (init n).workers := by simpa [init] using hw
    have := hall _ hinit
    simp at this

/-! ### Preservation of the invariant by every step -/

theorem poolInv_enq {s : PoolState} (f : Nat → Except Err Val) (arg : Nat)
    (hs : PoolInv s) (hstop : s.stop = false) : PoolInv (pushTask s f arg) := by
  have hbound : ∀ x ∈ s.dequeued ++ queuedIds s, x < s.handles.length := by
    intro x hx
    rcases List.mem_append.mp hx with hx | hx
    · exact hs.id_lt (by
        rcases List.mem_append.mp (hs.deq.mem_iff.mp hx) with h | h
        · exact List.mem_append.mpr (Or.inr (List.mem_append.mpr (Or.inl h)))
        · exact List.mem_append.mpr (Or.inr (List.mem_append.mpr (Or.inr h))))
    · exact hs.id_lt (List.mem_append.mpr (Or.inl hx))
  constructor
  case perm =>
    have hstep1 : (queuedIds (pushTask s f arg) ++
        (runningIds (pushTask s f arg).workers ++ (pushTask s f arg).executed)).Perm
        ((queuedIds s ++ (runningIds s.workers ++ s.executed)) ++ [s.handles.length]) := by
      simp only [pushTask, queuedIds, mkItem, List.map_append, List.map_cons, List.map_nil]
      rw [List.append_assoc, List.append_assoc]
      exact List.Perm.append_left _ List.perm_append_comm
    have hlen : (pushTask s f arg).handles.length = s.handles.length + 1 := by
      simp [pushTask]
    rw [hlen, List.range_succ]
    exact hstep1.trans (hs.perm.append_right _)
  case deq =>
    simpa [pushTask] using hs.deq
  case sorted =>
    have hgoal : (s.dequeued ++ (queuedIds s ++ [s.handles.length])).Pairwise (· < ·) := by
      rw [← List.append_assoc]
      refine List.pairwise_append.mpr ⟨hs.sorted, List.pairwise_singleton _ _, ?_⟩
      intro x hx y hy
      rcases List.mem_singleton.mp hy with rfl
      exact hbound x hx
    simpa [pushTask, queuedIds, mkItem] using hgoal
  case sub_ids =>
    simp [pushTask, mkItem, hs.sub_ids, List.range_succ]
  case task_sub =>
    intro t ht
    have hmem : t ∈ s.tasks ++ [mkItem s f arg] := by simpa [pushTask] using ht
    show (s.submitted ++ [mkItem s f arg])[t.tid]? = some t
    rcases List.mem_append.mp hmem with h | h
    · have hold := hs.task_sub t h
      have hlt : t.tid < s.submitted.length := (List.getElem?_eq_some.mp hold).1
      rw [List.getElem?_append_left hlt]
      exact hold
    · rcases List.mem_singleton.mp h with rfl
      have : (mkItem s f arg).tid = s.submitted.length := by
        simp [mkItem, hs.sub_len]
      rw [this]
      simp
  case run_sub =>
    intro i t hw
    have hold := hs.run_sub i t (by simpa [pushTask] using hw)
    have hlt : t.tid < s.submitted.length := (List.getElem?_eq_some.mp hold).1
    show (s.submitted ++ [mkItem s f arg])[t.tid]? = some t
    rw [List.getElem?_append_left hlt]
    exact hold
  case hval =>
    intro i t hsub
    have hsub' : (s.submitted ++ [mkItem s f arg])[i]? = some t := by
      simpa [pushTask] using hsub
    have hi : i < s.submitted.length + 1 := by
      have := (List.getElem?_eq_some.mp hsub').1
      simpa using this
    show (s.handles ++ [none])[i]? =
      some (if i ∈ s.executed then some (t.f t.arg) else none)
    rcases Nat.lt_succ_iff_lt_or_eq.mp hi with hi | hi
    · have hsubold : s.submitted[i]? = some t := by
        rw [List.getElem?_append_left hi] at hsub'
        exact hsub'
      have hhlt : i < s.handles.length := hs.sub_len ▸ hi
      rw [List.getElem?_append_left hhlt]
      exact hs.hval i t hsubold
    · subst hi
      have hnotex : s.submitted.length ∉ s.executed := by
        intro hmem
        have hlt := hs.id_lt
          (List.mem_append.mpr (Or.inr (List.mem_append.mpr (Or.inr hmem))))
        rw [← hs.sub_len] at hlt
        exact absurd hlt (Nat.lt_irrefl _)
      rw [if_neg hnotex]
      have : s.handles.length = s.submitted.length := hs.sub_len.symm
      rw [← this]
      simp
  case term_stop =>
    intro h
    exact hs.term_stop (by simpa [pushTask] using h)
  case all_term =>
    intro hne hall
    have hne' : s.workers ≠ [] := by simpa [pushTask] using hne
    rcases List.exists_mem_of_ne_nil _ hne' with ⟨w, hw⟩
    have hwterm := hall w (by simpa [pushTask] using hw)
    subst hwterm
    have := hs.term_stop hw
    rw [hstop] at this
    exact absurd this (by simp)

theorem poolInv_claim {s : PoolState} {i : Nat} {t : WorkItem} {rest : List WorkItem}
    (hs : PoolInv s) (hw : s.workers[i]? = some .waiting) (ht : s.tasks = t :: rest) :
    PoolInv { s with tasks := rest
                     workers := s.workers.set i (.running t)
                     dequeued := s.dequeued ++ [t.tid] } := by
  have hrun := runningIds_set_running t hw
  have hq : queuedIds s = t.tid :: rest.map WorkItem.tid := by
    simp [queuedIds, ht]
  constructor
  case perm =>
    show (rest.map WorkItem.tid ++
        (runningIds (s.workers.set i (.running t)) ++ s.executed)).Perm
        (List.range s.handles.length)
    have h1 : (rest.map WorkItem.tid ++
        (runningIds (s.workers.set i (.running t)) ++ s.executed)).Perm
        (rest.map WorkItem.tid ++ ((t.tid :: runningIds s.workers) ++ s.executed)) :=
      List.Perm.append_left _ (hrun.append_right _)
    have h2 : (rest.map WorkItem.tid ++ ((t.tid :: runningIds s.workers) ++ s.executed)).Perm
        (t.tid :: (rest.map WorkItem.tid ++ (runningIds s.workers ++ s.executed))) := by
      exact List.perm_middle
    have h3 : t.tid :: (rest.map WorkItem.tid ++ (runningIds s.workers ++ s.executed)) =
        queuedIds s ++ (runningIds s.workers ++ s.executed) := by
      rw [hq]; rfl
    exact ((h1.trans h2).trans (h3 ▸ List.Perm.refl _)).trans hs.perm
  case deq =>
    show (s.dequeued ++ [t.tid]).Perm
        (runningIds (s.workers.set i (.running t)) ++ s.executed)
    have h1 : (s.dequeued ++ [t.tid]).Perm (t.tid :: s.dequeued) :=
      List.perm_append_comm
    have h2 : (t.tid :: s.dequeued).Perm (t.tid :: (runningIds s.workers ++ s.executed)) :=
      hs.deq.cons _
    have h3 : (t.tid :: (runningIds s.workers ++ s.executed)).Perm
        (runningIds (s.workers.set i (.running t)) ++ s.executed) := by
      have : ((t.tid :: runningIds s.workers) ++ s.executed).Perm
          (runningIds (s.workers.set i (.running t)) ++ s.executed) :=
        (hrun.symm).append_right _
      exact this
    exact (h1.trans h2).trans h3
  case sorted =>
    show ((s.dequeued ++ [t.tid]) ++ rest.map WorkItem.tid).Pairwise (· < ·)
    have : (s.dequeued ++ [t.tid]) ++ rest.map WorkItem.tid =
        s.dequeued ++ queuedIds s := by
      rw [hq, List.append_assoc]; rfl
    rw [this]
    exact hs.sorted
  case sub_ids => exact hs.sub_ids
  case task_sub =>
    intro u hu
    exact hs.task_sub u (by rw [ht]; exact List.mem_cons_of_mem _ hu)
  case run_sub =>
    intro j u hj
    by_cases hij : i = j
    · subst hij
      have hi : i < s.workers.length := (List.getElem?_eq_some.mp hw).1
      rw [List.getElem?_set_eq_of_lt _ hi] at hj
      have : WStatus.running t = WStatus.running u := by
        injection hj
      injection this with h'
      subst h'
      exact hs.task_sub t (by rw [ht]; exact List.mem_cons_self _ _)
    · rw [List.getElem?_set_ne hij] at hj
      exact hs.run_sub j u hj
  case hval => exact hs.hval
  case term_stop =>
    intro h
    rcases List.mem_or_eq_of_mem_set h with h | h
    · exact hs.term_stop h
    · exact absurd h (by simp)
  case all_term =>
    intro hne hall
    have hi : i < s.workers.length := (List.getElem?_eq_some.mp hw).1
    have hmem : WStatus.running t ∈ s.workers.set i (.running t) :=
      List.getElem?_mem (List.getElem?_set_eq_of_lt _ hi)
    have := hall _ hmem
    exact absurd this (by simp)

theorem poolInv_finish {s : PoolState} {i : Nat} {t : WorkItem}
    (hs : PoolInv s) (hw : s.workers[i]? = some (.running t)) :
    PoolInv { s with workers := s.workers.set i .waiting
                     handles := s.handles.set t.tid (some (t.f t.arg))
                     executed := s.executed ++ [t.tid] } := by
  have hrun := runningIds_set_waiting hw
  have hsub : s.submitted[t.tid]? = some t := hs.run_sub i t hw
  have htl : t.tid < s.handles.length := by
    have := hs.hval t.tid t hsub
    exact (List.getElem?_eq_some.mp this).1
  have hlen : (s.handles.set t.tid (some (t.f t.arg))).length = s.handles.length :=
    List.length_set _ _ _
  have htid_run : t.tid ∈ runningIds s.workers :=
    hrun.mem_iff.mp (List.mem_cons_self _ _)
  have hnodup := hs.nodup_all
  have htid_not_exec : t.tid ∉ s.executed := by
    intro hmem
    have hdisj := (List.nodup_append.mp (List.nodup_append.mp hnodup).2.1).2.2
    exact hdisj htid_run hmem
  constructor
  case perm =>
    show (queuedIds s ++
        (runningIds (s.workers.set i .waiting) ++ (s.executed ++ [t.tid]))).Perm
        (List.range (s.handles.set t.tid (some (t.f t.arg))).length)
    rw [hlen]
    have h1 : (runningIds (s.workers.set i .waiting) ++ (s.executed ++ [t.tid])).Perm
        (runningIds (s.workers.set i .waiting) ++ (t.tid :: s.executed)) :=
      List.Perm.append_left _ List.perm_append_comm.symm
    have h2 : (runningIds (s.workers.set i .waiting) ++ (t.tid :: s.executed)).Perm
        (t.tid :: (runningIds (s.workers.set i .waiting) ++ s.executed)) :=
      List.perm_middle
    have h3 : (t.tid :: (runningIds (s.workers.set i .waiting) ++ s.executed)) =
        ((t.tid :: runningIds (s.workers.set i .waiting)) ++ s.executed) := rfl
    have h4 : ((t.tid :: runningIds (s.workers.set i .waiting)) ++ s.executed).Perm
        (runningIds s.workers ++ s.executed) :=
      hrun.append_right _
    have hall : (queuedIds s ++
        (runningIds (s.workers.set i .waiting) ++ (s.executed ++ [t.tid]))).Perm
        (queuedIds s ++ (runningIds s.workers ++ s.executed)) :=
      List.Perm.append_left _ (((h1.trans h2).trans (h3 ▸ List.Perm.refl _)).trans h4)
    exact hall.trans hs.perm
  case deq =>
    show s.dequeued.Perm (runningIds (s.workers.set i .waiting) ++ (s.executed ++ [t.tid]))
    have h4 : (runningIds s.workers ++ s.executed).Perm
        ((t.tid :: runningIds (s.workers.set i .waiting)) ++ s.executed) :=
      (hrun.append_right _).symm
    have h2 : ((t.tid :: runningIds (s.workers.set i .waiting)) ++ s.executed).Perm
        (runningIds (s.workers.set i .waiting) ++ (t.tid :: s.executed)) :=
      List.perm_middle.symm
    have h1 : (runningIds (s.workers.set i .waiting) ++ (t.tid :: s.executed)).Perm
        (runningIds (s.workers.set i .waiting) ++ (s.executed ++ [t.tid])) :=
      List.Perm.append_left _ (@List.perm_append_comm _ [t.tid] s.executed)
    exact ((hs.deq.trans h4).trans h2).trans h1
  case sorted => exact hs.sorted
  case sub_ids =>
    show s.submitted.map WorkItem.tid =
      List.range (s.handles.set t.tid (some (t.f t.arg))).length
    rw [hlen]
    exact hs.sub_ids
  case task_sub => exact hs.task_sub
  case run_sub =>
    intro j u hj
    by_cases hij : i = j
    · subst hij
      have hi : i < s.workers.length := (List.getElem?_eq_some.mp hw).1
      rw [List.getElem?_set_eq_of_lt _ hi] at hj
      simp at hj
    · rw [List.getElem?_set_ne hij] at hj
      exact hs.run_sub j u hj
  case hval =>
    intro j u hju
    by_cases hjt : j = t.tid
    · subst hjt
      have hut : t = u := by
        rw [hsub] at hju
        injection hju
      subst hut
      rw [List.getElem?_set_eq_of_lt _ htl]
      have hmem : t.tid ∈ s.executed ++ [t.tid] :=
        List.mem_append.mpr (Or.inr (by simp))
      rw [if_pos hmem]
    · rw [List.getElem?_set_ne (fun h => hjt h.symm)]
      have hmem_iff : j ∈ s.executed ++ [t.tid] ↔ j ∈ s.executed := by
        simp [List.mem_append, hjt]
      rw [if_congr hmem_iff rfl rfl]
      exact hs.hval j u hju
  case term_stop =>
    intro h
    rcases List.mem_or_eq_of_mem_set h with h | h
    · exact hs.term_stop h
    · exact absurd h (by simp)
  case all_term =>
    intro hne hall
    have hi : i < s.workers.length := (List.getElem?_eq_some.mp hw).1
    have hmem : WStatus.waiting ∈ s.workers.set i .waiting :=
      List.getElem?_mem (List.getElem?_set_eq_of_lt _ hi)
    have := hall _ hmem
    exact absurd this (by simp)

theorem poolInv_exitW {s : PoolState} {i : Nat}
    (hs : PoolInv s) (hw : s.workers[i]? = some .waiting)
    (hstop : s.stop = true) (hempty : s.tasks = []) :
    PoolInv { s with workers := s.workers.set i .terminated } := by
  have hrun := runningIds_set_terminated hw
  constructor
  case perm =>
    show (queuedIds s ++ (runningIds (s.workers.set i .terminated) ++ s.executed)).Perm
        (List.range s.handles.length)
    rw [hrun]
    exact hs.perm
  case deq =>
    show s.dequeued.Perm (runningIds (s.workers.set i .terminated) ++ s.executed)
    rw [hrun]
    exact hs.deq
  case sorted => exact hs.sorted
  case sub_ids => exact hs.sub_ids
  case task_sub => exact hs.task_sub
  case run_sub =>
    intro j u hj
    by_cases hij : i = j
    · subst hij
      have hi : i < s.workers.length := (List.getElem?_eq_some.mp hw).1
      rw [List.getElem?_set_eq_of_lt _ hi] at hj
      simp at hj
    · rw [List.getElem?_set_ne hij] at hj
      exact hs.run_sub j u hj
  case hval => exact hs.hval
  case term_stop =>
    intro _
    exact hstop
  case all_term =>
    intro _ _
    exact hempty

theorem poolInv_setStop {s : PoolState} (hs : PoolInv s) :
    PoolInv { s with stop := true } := by
  constructor
  case perm => exact hs.perm
  case deq => exact hs.deq
  case sorted => exact hs.sorted
  case sub_ids => exact hs.sub_ids
  case task_sub => exact hs.task_sub
  case run_sub => exact hs.run_sub
  case hval => exact hs.hval
  case term_stop => intro _; rfl
  case all_term => exact hs.all_term

/-- Every step preserves the invariant. -/
theorem PoolInv.step {s s' : PoolState} {l : Label}
    (hs : PoolInv s) (h : Step s l s') : PoolInv s' := by
  cases h with
  | enq f arg hstop => exact poolInv_enq f arg hs hstop
  | enqFail _ => exact hs
  | claim i t rest hw ht => exact poolInv_claim hs hw ht
  | finish i t hw => exact poolInv_finish hs hw
  | exitW i hw hstop hempty => exact poolInv_exitW hs hw hstop hempty
  | setStop => exact poolInv_setStop hs

/-- The invariant holds along any execution. -/
theorem PoolInv.reach {s s' : PoolState} (hs : PoolInv s) (h : Reachable s s') :
    PoolInv s' := by
  induction h with
  | refl => exact hs
  | tail _ hstep ih =>
    rcases hstep with ⟨l, hl⟩
    exact ih.step hl

/-- The invariant holds in every state reachable from a fresh pool. -/
theorem reachable_inv {n : Nat} {s : PoolState} (h : Reachable (init n) s) :
    PoolInv s :=
  (init_inv n).reach h

/-! ### Monotone quantities along steps -/

theorem Step.stop_mono {s s' : PoolState} {l : Label}
    (h : Step s l s') (hstop : s.stop = true) : s'.stop = true := by
  cases h <;> simp_all [pushTask]

theorem Step.submitted_mono {s s' : PoolState} {l : Label}
    (h : Step s l s') : ∃ tl, s'.submitted = s.submitted ++ tl := by
  cases h with
  | enq f arg _ => exact ⟨[mkItem s f arg], rfl⟩
  | _ => exact ⟨[], by simp⟩

theorem Step.executed_mono {s s' : PoolState} {l : Label}
    (h : Step s l s') : ∃ tl, s'.executed = s.executed ++ tl := by
  cases h with
  | finish i t _ => exact ⟨[t.tid], rfl⟩
  | enq f arg _ => exact ⟨[], by simp [pushTask]⟩
  | _ => exact ⟨[], by simp⟩

theorem Step.workers_len {s s' : PoolState} {l : Label}
    (h : Step s l s') : s'.workers.length = s.workers.length := by
  cases h <;> simp [pushTask]

theorem Reachable.stop_stays {s s' : PoolState}
    (h : Reachable s s') (hstop : s.stop = true) : s'.stop = true := by
  induction h with
  | refl => exact hstop
  | tail _ hstep ih =>
    rcases hstep with ⟨l, hl⟩
    exact hl.stop_mono ih

theorem Reachable.submitted_grows {s s' : PoolState}
    (h : Reachable s s') : ∃ tl, s'.submitted = s.submitted ++ tl := by
  induction h with
  | refl => exact ⟨[], by simp⟩
  | tail _ hstep ih =>
    rcases hstep with ⟨l, hl⟩
    rcases ih with ⟨tl1, h1⟩
    rcases hl.submitted_mono with ⟨tl2, h2⟩
    exact ⟨tl1 ++ tl2, by rw [h2, h1, List.append_assoc]⟩

theorem Reachable.executed_grows {s s' : PoolState}
    (h : Reachable s s') : ∃ tl, s'.executed = s.executed ++ tl := by
  induction h with
  | refl => exact ⟨[], by simp⟩
  | tail _ hstep ih =>
    rcases hstep with ⟨l, hl⟩
    rcases ih with ⟨tl1, h1⟩
    rcases hl.executed_mono with ⟨tl2, h2⟩
    exact ⟨tl1 ++ tl2, by rw [h2, h1, List.append_assoc]⟩

theorem Reachable.workers_len_eq {s s' : PoolState}
    (h : Reachable s s') : s'.workers.length = s.workers.length := by
  induction h with
  | refl => rfl
  | tail _ hstep ih =>
    rcases hstep with ⟨l, hl⟩
    rw [hl.workers_len, ih]

theorem Reachable.submitted_stable {s s' : PoolState}
    (h : Reachable s s') {i : Nat} {t : WorkItem}
    (hi : s.submitted[i]? = some t) : s'.submitted[i]? = some t := by
  rcases h.submitted_grows with ⟨tl, htl⟩
  have hlt : i < s.submitted.length := (List.getElem?_eq_some.mp hi).1
  rw [htl, List.getElem?_append_left hlt]
  exact hi

theorem Reachable.executed_stable {s s' : PoolState}
    (h : Reachable s s') {i : Nat}
    (hi : i ∈ s.executed) : i ∈ s'.executed := by
  rcases h.executed_grows with ⟨tl, htl⟩
  rw [htl]
  exact List.mem_append.mpr (Or.inl hi)

/-! ### A pool with zero workers never executes anything -/

theorem zero_worker_frozen {s : PoolState} (h : Reachable (init 0) s) :
    s.workers = [] ∧ s.executed = [] ∧ s.dequeued = [] ∧
    (∀ o ∈ s.handles, o = none) := by
  induction h with
  | refl => simp [init]
  | tail _ hstep ih =>
    rcases hstep with ⟨l, hl⟩
    obtain ⟨hws, hex, hdq, hh⟩ := ih
    cases hl with
    | enq f arg hstop =>
      refine ⟨hws, hex, hdq, ?_⟩
      intro o ho
      simp only [pushTask, List.mem_append, List.mem_singleton] at ho
      rcases ho with ho | ho
      · exact hh o ho
      · exact ho
    | enqFail _ => exact ⟨hws, hex, hdq, hh⟩
    | claim i t rest hw _ =>
      rw [hws] at hw
      simp at hw
    | finish i t hw =>
      rw [hws] at hw
      simp at hw
    | exitW i hw _ _ =>
      rw [hws] at hw
      simp at hw
    | setStop => exact ⟨hws, hex, hdq, hh⟩

/-! ### Position of an element in a strictly sorted list -/

theorem pairwise_lt_index {l : List Nat} (hl : l.Pairwise (· < ·))
    {p q ia ib : Nat} (hp : l[p]? = some ia) (hq : l[q]? = some ib)
    (hab : ia < ib) : p < q := by
  obtain ⟨hp', hpe⟩ := List.getElem?_eq_some.mp hp
  obtain ⟨hq', hqe⟩ := List.getElem?_eq_some.mp hq
  by_contra hpq
  rcases Nat.lt_or_ge q p with hlt | hge
  · have hrel := List.pairwise_iff_get.mp hl ⟨q, hq'⟩ ⟨p, hp'⟩ hlt
    simp only [List.get_eq_getElem] at hrel
    rw [hpe, hqe] at hrel
    exact Nat.lt_asymm hab hrel
  · have heq : p = q := Nat.le_antisymm hge (Nat.le_of_not_lt hpq)
    subst heq
    rw [hpe] at hqe
    subst hqe
    exact Nat.lt_irrefl _ hab

/-! ### A concrete run of the example program (pool of 1 worker, one task) -/

/-- A callable that succeeds, echoing its argument (like `f` in example.cpp). -/
def fOk : Nat → Except Err Val := fun a => Except.ok a

/-- A callable that raises a failure. -/
def fBad : Nat → Except Err Val := fun _ => Except.error "boom"

def item0 : WorkItem := ⟨0, fOk, 42⟩

def demo1 : PoolState :=
  { stop := false, tasks := [item0], workers := [.waiting], handles := [none]
    submitted := [item0], dequeued := [], executed := [] }

def demo2 : PoolState :=
  { stop := false, tasks := [], workers := [.running item0], handles := [none]
    submitted := [item0], dequeued := [0], executed := [] }

def demo3 : PoolState :=
  { stop := false, tasks := [], workers := [.waiting]
    handles := [some (Except.ok 42)]
    submitted := [item0], dequeued := [0], executed := [0] }

def demo4 : PoolState :=
  { stop := true, tasks := [], workers := [.waiting]
    handles := [some (Except.ok 42)]
    submitted := [item0], dequeued := [0], executed := [0] }

def demo5 : PoolState :=
  { stop := true, tasks := [], workers := [.terminated]
    handles := [some (Except.ok 42)]
    submitted := [item0], dequeued := [0], executed := [0] }

theorem step_demo01 : Step (init 1) (.enq fOk 42) demo1 :=
  Step.enq fOk 42 rfl

theorem step_demo12 : Step demo1 (.claim 0 0) demo2 :=
  Step.claim 0 item0 [] rfl rfl

theorem step_demo23 : Step demo2 (.finish 0 0) demo3 :=
  Step.finish 0 item0 rfl

theorem step_demo34 : Step demo3 .setStop demo4 :=
  Step.setStop

theorem step_demo45 : Step demo4 (.exitW 0) demo5 :=
  Step.exitW 0 rfl rfl rfl

theorem reach_demo1 : Reachable (init 1) demo1 :=
  Relation.ReflTransGen.single ⟨_, step_demo01⟩

theorem reach_demo2 : Reachable (init 1) demo2 :=
  reach_demo1.tail ⟨_, step_demo12⟩

theorem reach_demo3 : Reachable (init 1) demo3 :=
  reach_demo2.tail ⟨_, step_demo23⟩

theorem reach_demo4 : Reachable (init 1) demo4 :=
  reach_demo3.tail ⟨_, step_demo34⟩

theorem reach_demo5 : Reachable (init 1) demo5 :=
  reach_demo4.tail ⟨_, step_demo45⟩

/-! ### A concrete run on a pool of 0 workers -/

def zitem : WorkItem := ⟨0, fOk, 7⟩

/-- Zero-worker pool with one task enqueued. -/
def zdemo1 : PoolState :=
  { stop := false, tasks := [zitem], workers := [], handles := [none]
    submitted := [zitem], dequeued := [], executed := [] }

/-- Zero-worker pool after its destructor set `stop` (joining zero threads
then completes immediately). -/
def zdemo2 : PoolState :=
  { stop := true, tasks := [zitem], workers := [], handles := [none]
    submitted := [zitem], dequeued := [], executed := [] }

theorem step_zdemo01 : Step (init 0) (.enq fOk 7) zdemo1 :=
  Step.enq fOk 7 rfl

theorem step_zdemo12 : Step zdemo1 .setStop zdemo2 :=
  Step.setStop

theorem reach_zdemo1 : Reachable (init 0) zdemo1 :=
  Relation.ReflTransGen.single ⟨_, step_zdemo01⟩

theorem reach_zdemo2 : Reachable (init 0) zdemo2 :=
  reach_zdemo1.tail ⟨_, step_zdemo12⟩

/-! ### The claims -/

/-- C1: every submitted WorkItem is dequeued by exactly one worker and
executed exactly once — the dequeue and execution histories are
duplicate-free, a claimed item is never still in the queue, and at every
moment each submitted id sits in exactly one of queue / running worker /
executed history (stated over all interleavings, hence also for submissions
from concurrent callers). -/
theorem C1_exactly_once (n : Nat) (s : PoolState) (h : Reachable (init n) s) :
    s.dequeued.Nodup ∧ s.executed.Nodup ∧
    (∀ id ∈ s.dequeued, id ∉ queuedIds s) ∧
    (queuedIds s ++ (runningIds s.workers ++ s.executed)).Perm
      (List.range s.handles.length) := by
  have hs : PoolInv s := reachable_inv h
  obtain ⟨hQ, hRE, hdisj⟩ := List.nodup_append.mp hs.nodup_all
  refine ⟨hs.deq.symm.nodup hRE, (List.nodup_append.mp hRE).2.1, ?_, hs.perm⟩
  intro id hid hidQ
  exact hdisj hidQ (hs.deq.mem_iff.mp hid)

theorem C1_exactly_once_witness :
    demo3.dequeued.Nodup ∧ demo3.executed.Nodup ∧
    (∀ id ∈ demo3.dequeued, id ∉ queuedIds demo3) ∧
    (queuedIds demo3 ++ (runningIds demo3.workers ++ demo3.executed)).Perm
      (List.range demo3.handles.length) :=
  C1_exactly_once 1 demo3 reach_demo3

/-- C2 as stated is false: on a pool constructed with zero workers the
destructor flips `stop`, notifies, joins zero threads and returns, yet a
task queued before destruction is still in the queue and was never
executed. -/
theorem C2_counterexample :
    Reachable (init 0) zdemo2 ∧ destructorDone zdemo2 ∧
    zdemo2.tasks ≠ [] ∧ zdemo2.executed = [] := by
  refine ⟨reach_zdemo2, ⟨rfl, ?_⟩, ?_, rfl⟩
  · intro w hw
    simp [zdemo2] at hw
  · simp [zdemo2]

/-- C2 (amended): for every pool with at least one worker thread, once the
destructor has returned (`stop` set, all workers joined) the queue is empty
and every submitted task has been executed; no queued task is abandoned. -/
theorem C2_destructor_drains (n : Nat) (s : PoolState)
    (hn : 0 < n) (h : Reachable (init n) s) (hd : destructorDone s) :
    s.tasks = [] ∧ s.executed.Perm (List.range s.handles.length) := by
  have hs := reachable_inv h
  have hlen : s.workers.length = n := by
    have hw := h.workers_len_eq
    simpa [init] using hw
  have hne : s.workers ≠ [] := by
    intro h0
    rw [h0] at hlen
    simp at hlen
    omega
  have hempty : s.tasks = [] := hs.all_term hne hd.2
  refine ⟨hempty, ?_⟩
  have hrun : runningIds s.workers = [] := runningIds_of_all_terminated hd.2
  have hq : queuedIds s = [] := by simp [queuedIds, hempty]
  have hperm := hs.perm
  rw [hq, hrun] at hperm
  simpa using hperm

theorem C2_destructor_drains_witness :
    destructorDone demo5 ∧ demo5.tasks = [] ∧
    demo5.executed.Perm (List.range demo5.handles.length) := by
  have hd : destructorDone demo5 := by
    constructor
    · rfl
    · intro w hw
      simpa [demo5] using hw
  obtain ⟨h1, h2⟩ := C2_destructor_drains 1 demo5 Nat.one_pos reach_demo5 hd
  exact ⟨hd, h1, h2⟩

/-- C3: `enqueue` called after `stop` is set throws
`std::runtime_error("enqueue on stopped ThreadPool")` synchronously: the
pool state (in particular the task queue) is returned unchanged, the result
is the error rather than a future, the event log shows the throw and no
push, and the corresponding transition is a self-loop that executes
nothing. -/
theorem C3_enqueue_after_stop (s : PoolState) (f : Nat → Except Err Val)
    (arg : Nat) (hstop : s.stop = true) :
    enqueueRun s f arg =
      (s, Except.error "enqueue on stopped ThreadPool",
        [EnqEvent.taskCreated, EnqEvent.lockAcquired, EnqEvent.threwPoolClosed]) ∧
    Step s Label.enqFail s := by
  constructor
  · simp [enqueueRun, hstop]
  · exact Step.enqFail hstop

theorem C3_enqueue_after_stop_witness :
    enqueueRun zdemo2 fOk 3 =
      (zdemo2, Except.error "enqueue on stopped ThreadPool",
        [EnqEvent.taskCreated, EnqEvent.lockAcquired, EnqEvent.threwPoolClosed]) ∧
    Step zdemo2 Label.enqFail zdemo2 :=
  C3_enqueue_after_stop zdemo2 fOk 3 rfl

/-- C4: the queue is FIFO — a successful `enqueue` appends at the back, a
worker's claim removes exactly the front, and therefore items submitted
earlier (smaller ghost id, i.e. non-overlapping earlier submission) are
dequeued at earlier positions of the dequeue history. -/
theorem C4_fifo_order (n : Nat) (s : PoolState) (h : Reachable (init n) s) :
    (∀ (f : Nat → Except Err Val) (arg : Nat) (s' : PoolState),
      Step s (.enq f arg) s' → s'.tasks = s.tasks ++ [mkItem s f arg]) ∧
    (∀ (i tid : Nat) (s' : PoolState), Step s (.claim i tid) s' →
      ∃ t rest, s.tasks = t :: rest ∧ t.tid = tid ∧ s'.tasks = rest) ∧
    (∀ (p q ia ib : Nat), s.dequeued[p]? = some ia → s.dequeued[q]? = some ib →
      ia < ib → p < q) := by
  have hs := reachable_inv h
  refine ⟨?_, ?_, ?_⟩
  · intro f arg s' hstep
    cases hstep
    simp [pushTask]
  · intro i tid s' hstep
    cases hstep with
    | claim i t rest hw ht => exact ⟨t, rest, ht, rfl, rfl⟩
  · intro p q ia ib hp hq hab
    have hsorted : s.dequeued.Pairwise (· < ·) :=
      (List.pairwise_append.mp hs.sorted).1
    exact pairwise_lt_index hsorted hp hq hab

theorem C4_fifo_order_witness :
    (∀ (f : Nat → Except Err Val) (arg : Nat) (s' : PoolState),
      Step demo3 (.enq f arg) s' → s'.tasks = demo3.tasks ++ [mkItem demo3 f arg]) ∧
    (∀ (i tid : Nat) (s' : PoolState), Step demo3 (.claim i tid) s' →
      ∃ t rest, demo3.tasks = t :: rest ∧ t.tid = tid ∧ s'.tasks = rest) ∧
    (∀ (p q ia ib : Nat), demo3.dequeued[p]? = some ia →
      demo3.dequeued[q]? = some ib → ia < ib → p < q) :=
  C4_fifo_order 1 demo3 reach_demo3

/-- C5: a worker terminates exactly when it observes `stop` set with an
empty queue; while the queue is non-empty it keeps claiming items even
after `stop` was set (the queue drains), and no new item can be enqueued
once `stop` is set. -/
theorem C5_worker_exit (s : PoolState) :
    (∀ (i : Nat) (s' : PoolState), Step s (.exitW i) s' →
      s.stop = true ∧ s.tasks = []) ∧
    (∀ i : Nat, s.workers[i]? = some .waiting → s.stop = true → s.tasks = [] →
      Step s (.exitW i) { s with workers := s.workers.set i .terminated }) ∧
    (∀ (i : Nat) (t : WorkItem) (rest : List WorkItem),
      s.workers[i]? = some .waiting → s.tasks = t :: rest →
      Step s (.claim i t.tid)
        { s with tasks := rest
                 workers := s.workers.set i (.running t)
                 dequeued := s.dequeued ++ [t.tid] }) ∧
    (∀ (f : Nat → Except Err Val) (arg : Nat) (s' : PoolState),
      Step s (.enq f arg) s' → s.stop = false) := by
  refine ⟨?_, ?_, ?_, ?_⟩
  · intro i s' hstep
    cases hstep with
    | exitW _ hw hstop hempty => exact ⟨hstop, hempty⟩
  · intro i hw hstop hempty
    exact Step.exitW i hw hstop hempty
  · intro i t rest hw ht
    exact Step.claim i t rest hw ht
  · intro f arg s' hstep
    cases hstep with
    | enq _ _ hstop => exact hstop

theorem C5_worker_exit_witness :
    (demo4.stop = true ∧ demo4.tasks = []) ∧ Step demo4 (.exitW 0) demo5 := by
  refine ⟨(C5_worker_exit demo4).1 0 demo5 step_demo45, ?_⟩
  exact (C5_worker_exit demo4).2.1 0 rfl rfl rfl

/-! ### A run whose task raises a failure -/

def eitem : WorkItem := ⟨0, fBad, 5⟩

def edemo1 : PoolState :=
  { stop := false, tasks := [eitem], workers := [.waiting], handles := [none]
    submitted := [eitem], dequeued := [], executed := [] }

def edemo2 : PoolState :=
  { stop := false, tasks := [], workers := [.running eitem], handles := [none]
    submitted := [eitem], dequeued := [0], executed := [] }

theorem step_edemo01 : Step (init 1) (.enq fBad 5) edemo1 :=
  Step.enq fBad 5 rfl

theorem step_edemo12 : Step edemo1 (.claim 0 0) edemo2 :=
  Step.claim 0 eitem [] rfl rfl

theorem reach_edemo2 : Reachable (init 1) edemo2 :=
  (Relation.ReflTransGen.single ⟨_, step_edemo01⟩).tail ⟨_, step_edemo12⟩

/-- C6: when the callable of the item a worker is executing raises a
failure, the failure is stored into that item's future (re-raised only when
the caller reads it); the worker goes back to waiting instead of dying, the
`stop` flag and the queue are untouched, and the worker can immediately
claim the next queued item. -/
theorem C6_failure_captured (s : PoolState) (i : Nat) (t : WorkItem) (e : Err)
    (hw : s.workers[i]? = some (.running t)) (hf : t.f t.arg = .error e)
    (htl : t.tid < s.handles.length) :
    ∃ s', Step s (.finish i t.tid) s' ∧
      s'.handles[t.tid]? = some (some (Except.error e)) ∧
      s'.workers[i]? = some .waiting ∧
      s'.stop = s.stop ∧ s'.tasks = s.tasks ∧
      (∀ (u : WorkItem) (rest : List WorkItem), s.tasks = u :: rest →
        Step s' (.claim i u.tid)
          { s' with tasks := rest
                    workers := s'.workers.set i (.running u)
                    dequeued := s'.dequeued ++ [u.tid] }) := by
  have hi : i < s.workers.length := (List.getElem?_eq_some.mp hw).1
  refine ⟨_, Step.finish i t hw, ?_, ?_, rfl, rfl, ?_⟩
  · show (s.handles.set t.tid (some (t.f t.arg)))[t.tid]? = some (some (Except.error e))
    rw [List.getElem?_set_eq_of_lt _ htl, hf]
  · show (s.workers.set i .waiting)[i]? = some .waiting
    exact List.getElem?_set_eq_of_lt _ hi
  · intro u rest ht
    refine Step.claim i u rest ?_ ht
    exact List.getElem?_set_eq_of_lt _ hi

theorem C6_failure_captured_witness :
    ∃ s', Step edemo2 (.finish 0 0) s' ∧
      s'.handles[0]? = some (some (Except.error "boom")) ∧
      s'.workers[0]? = some .waiting ∧
      s'.stop = edemo2.stop ∧ s'.tasks = edemo2.tasks ∧
      (∀ (u : WorkItem) (rest : List WorkItem), edemo2.tasks = u :: rest →
        Step s' (.claim 0 u.tid)
          { s' with tasks := rest
                    workers := s'.workers.set 0 (.running u)
                    dequeued := s'.dequeued ++ [u.tid] }) :=
  C6_failure_captured edemo2 0 eitem "boom" rfl rfl Nat.one_pos

/-- C7 is false in its last clause: `enqueue` returns a plain `std::future`,
whose `get()` releases the shared state when it returns, so a repeated read
does not return the cached value — in the fulfilled state `demo3` the first
`get` yields the computed value `ok 42` but a second `get` on the returned
(now invalid) future fails with `std::future_error`. -/
theorem C7_counterexample :
    Reachable (init 1) demo3 ∧
    futureGetOnce demo3 ⟨0, true⟩ =
      (GetResult.value (Except.ok 42), (⟨0, false⟩ : FutureHandle)) ∧
    (futureGetOnce demo3 (futureGetOnce demo3 ⟨0, true⟩).2).1 =
      GetResult.futureError ∧
    (futureGetOnce demo3 (futureGetOnce demo3 ⟨0, true⟩).2).1 ≠
      GetResult.value (Except.ok 42) := by
  refine ⟨reach_demo3, rfl, rfl, ?_⟩
  have h3 : (futureGetOnce demo3 (futureGetOnce demo3 ⟨0, true⟩).2).1 =
      GetResult.futureError := rfl
  rw [h3]
  intro hcontra
  exact GetResult.noConfusion hcontra

/-- C7 (amended): reading the returned handle with `get()` blocks until the
task has resolved and then returns exactly the value `f(args...)` computed
by the worker (or re-raises the captured failure), and any first read, in
whatever later state it happens, returns that same stored outcome; but the
read releases the future's shared state, so the value is retrievable at
most once — a repeated `get()` fails with `std::future_error` instead of
returning the cached value. -/
theorem C7_get_single_read (n : Nat) (s : PoolState) (h : Reachable (init n) s)
    (tid : Nat) (t : WorkItem) (ht : s.submitted[tid]? = some t) :
    (tid ∉ s.executed →
      futureGetOnce s ⟨tid, true⟩ = (GetResult.blocked, (⟨tid, true⟩ : FutureHandle))) ∧
    (tid ∈ s.executed →
      futureGetOnce s ⟨tid, true⟩ =
        (GetResult.value (t.f t.arg), (⟨tid, false⟩ : FutureHandle)) ∧
      ∀ s', Reachable s s' →
        futureGetOnce s' ⟨tid, true⟩ =
          (GetResult.value (t.f t.arg), (⟨tid, false⟩ : FutureHandle))) ∧
    (∀ st : PoolState, (futureGetOnce st ⟨tid, false⟩).1 = GetResult.futureError) := by
  have hs := reachable_inv h
  refine ⟨?_, ?_, ?_⟩
  · intro hne
    have hv := hs.hval tid t ht
    rw [if_neg hne] at hv
    simp [futureGetOnce, futureGet, hv]
  · intro hex
    have hv := hs.hval tid t ht
    rw [if_pos hex] at hv
    refine ⟨by simp [futureGetOnce, futureGet, hv], ?_⟩
    intro s' hreach
    have hs' := hs.reach hreach
    have ht' : s'.submitted[tid]? = some t := hreach.submitted_stable ht
    have hex' : tid ∈ s'.executed := hreach.executed_stable hex
    have hv' := hs'.hval tid t ht'
    rw [if_pos hex'] at hv'
    simp [futureGetOnce, futureGet, hv']
  · intro st
    simp [futureGetOnce]

theorem C7_get_single_read_witness :
    futureGetOnce demo3 ⟨0, true⟩ =
      (GetResult.value (item0.f item0.arg), (⟨0, false⟩ : FutureHandle)) ∧
    ∀ s', Reachable demo3 s' →
      futureGetOnce s' ⟨0, true⟩ =
        (GetResult.value (item0.f item0.arg), (⟨0, false⟩ : FutureHandle)) :=
  (C7_get_single_read 1 demo3 reach_demo3 0 item0 rfl).2.1 (by simp [demo3])

/-- C8: a successful push appends at the back under the lock and then
signals (`notify_one` is the last event of the call); a worker leaves its
wait only when the predicate `stop || !tasks.empty()` holds, so spurious
wakeups cause no action; and once `stop` is set every waiting worker has an
enabled transition (claim or exit), so none stays blocked. -/
theorem C8_no_lost_wakeup (s : PoolState) :
    (∀ (f : Nat → Except Err Val) (arg : Nat), s.stop = false →
      (enqueueRun s f arg).1.tasks = s.tasks ++ [mkItem s f arg] ∧
      (enqueueRun s f arg).2.2 =
        [EnqEvent.taskCreated, EnqEvent.lockAcquired, EnqEvent.pushed,
         EnqEvent.lockReleased, EnqEvent.notifiedOne]) ∧
    (∀ (i tid : Nat) (s' : PoolState), Step s (.claim i tid) s' → wakePred s) ∧
    (∀ (i : Nat) (s' : PoolState), Step s (.exitW i) s' → wakePred s) ∧
    (∀ i : Nat, s.stop = true → s.workers[i]? = some .waiting →
      ∃ l s', Step s l s' ∧
        (l = Label.exitW i ∨ ∃ tid, l = Label.claim i tid)) := by
  refine ⟨?_, ?_, ?_, ?_⟩
  · intro f arg hstop
    constructor
    · simp [enqueueRun, hstop, pushTask]
    · simp [enqueueRun, hstop]
  · intro i tid s' hstep
    cases hstep with
    | claim _ t rest hw ht =>
      exact Or.inr (by simp [ht])
  · intro i s' hstep
    cases hstep with
    | exitW _ hw hstop hempty => exact Or.inl hstop
  · intro i hstop hw
    cases htasks : s.tasks with
    | nil => exact ⟨_, _, Step.exitW i hw hstop htasks, Or.inl rfl⟩
    | cons t rest =>
      exact ⟨_, _, Step.claim i t rest hw htasks, Or.inr ⟨t.tid, rfl⟩⟩

theorem C8_no_lost_wakeup_witness :
    ∃ l s', Step demo4 l s' ∧
      (l = Label.exitW 0 ∨ ∃ tid, l = Label.claim 0 tid) :=
  (C8_no_lost_wakeup demo4).2.2.2 0 rfl rfl

/-- C9: constructing a pool with 0 workers succeeds (no validation, no
failure) and spawns no worker threads; `enqueue` still accepts tasks and
returns a future, yet in every reachable state nothing is ever dequeued or
executed and every future is still pending (`get` would block forever); the
destructor returns right after setting `stop` (zero joins), leaving the
queued task undrained. -/
theorem C9_zero_worker_pool :
    (init 0).workers = [] ∧ (init 0).stop = false ∧
    (∀ (f : Nat → Except Err Val) (arg : Nat),
      (enqueueRun (init 0) f arg).2.1 = Except.ok 0 ∧
      (enqueueRun (init 0) f arg).1.tasks = [mkItem (init 0) f arg]) ∧
    (∀ s, Reachable (init 0) s →
      s.executed = [] ∧ s.dequeued = [] ∧ ∀ tid, futureGet s tid = none) ∧
    (Reachable (init 0) zdemo2 ∧ destructorDone zdemo2 ∧
      zdemo2.tasks = [zitem] ∧ zdemo2.executed = []) := by
  refine ⟨rfl, rfl, ?_, ?_, ?_⟩
  · intro f arg
    constructor
    · simp [enqueueRun, init]
    · simp [enqueueRun, init, pushTask]
  · intro s hreach
    obtain ⟨hws, hex, hdq, hh⟩ := zero_worker_frozen hreach
    refine ⟨hex, hdq, ?_⟩
    intro tid
    cases hget : s.handles[tid]? with
    | none => simp [futureGet, hget]
    | some o =>
      have ho : o = none := hh o (List.getElem?_mem hget)
      subst ho
      simp [futureGet, hget]
  · refine ⟨reach_zdemo2, ⟨rfl, ?_⟩, rfl, rfl⟩
    intro w hw
    simp [zdemo2] at hw

/-- C10: `enqueue` creates the packaged task — moving the caller's callable
and bound arguments into it — before acquiring the lock and checking the
`stop` flag (the first two events of every call are the task creation and
the lock acquisition); when the call then throws PoolClosed, the pool state
and queue are returned unchanged and the already-built task object is
discarded. -/
theorem C10_task_created_before_check (s : PoolState)
    (f : Nat → Except Err Val) (arg : Nat) :
    ((enqueueRun s f arg).2.2)[0]? = some EnqEvent.taskCreated ∧
    ((enqueueRun s f arg).2.2)[1]? = some EnqEvent.lockAcquired ∧
    (s.stop = true →
      (enqueueRun s f arg).1 = s ∧
      (enqueueRun s f arg).2.2 =
        [EnqEvent.taskCreated, EnqEvent.lockAcquired,
         EnqEvent.threwPoolClosed]) := by
  cases hst : s.stop with
  | false =>
    refine ⟨?_, ?_, ?_⟩
    · simp [enqueueRun, hst]
    · simp [enqueueRun, hst]
    · intro hc
      exact absurd hc (by simp)
  | true =>
    refine ⟨?_, ?_, ?_⟩ <;> simp [enqueueRun, hst]

theorem C10_task_created_before_check_witness :
    (enqueueRun zdemo2 fBad 9).1 = zdemo2 ∧
    (enqueueRun zdemo2 fBad 9).2.2 =
      [EnqEvent.taskCreated, EnqEvent.lockAcquired, EnqEvent.threwPoolClosed] :=
  (C10_task_created_before_check zdemo2 fBad 9).2.2 rfl
